import Mathlib

/-!
Verification of the scope-aware globals scanner in
`lib/pythonx/ast/scan_globals.py` (the `GlobalsVisitor` class and the
module-level result expression).

The Python AST fragment handled by the visitor is embedded as a mutual
inductive family; the visitor itself becomes a family of mutually
recursive state-passing functions, one per syntactic category, following
`ast.NodeVisitor` dispatch: nodes with a `visit_X` handler get that
handler's logic, all other nodes get `generic_visit`, i.e. the children
are visited in field order.

Conventions of the embedding:
- Python's `self.scopes` list keeps the global frame at index 0 and the
  top of the stack at the end (`scopes[-1]`).  Here `State.scopes` keeps
  the top of the stack at the HEAD of the list, so `scopes[-1]` is
  `List.head`, `scopes[0]` is `List.getLast`, `append`/`pop` become
  `cons`/`tail`, and Python's `reversed(self.scopes)` iteration is
  head-to-last iteration.
- Python `set` becomes `Finset String`.
- Operations that would raise on an empty scope stack in Python
  (`scopes[-1]` on `[]`, `next` on an exhausted generator) are made total
  by returning the state unchanged; the stack is in fact never empty
  (proved below), so this choice is unobservable.
- `ast.arg`'s unused third field (`annotation` in Python) is called
  `annot` here.
-/

namespace ScanGlobals

/-- Expression context of an `ast.Name` node (`ast.Load` / `ast.Store` /
`ast.Del`).  `visit_Name` tests `Store` then `Load`; a `Del` context
falls through both branches and does nothing. -/
inductive Ctx where
  | load
  | store
  | del
  deriving DecidableEq

/-- An `ast.alias` as it appears in `Import` / `ImportFrom` statement:
the imported (possibly dotted) name and the optional `as` rebinding. -/
structure Alias where
  name : String
  asname : Option String
  deriving DecidableEq

mutual

/-- Expression nodes of the embedded AST fragment.  `name`, `lambda`,
the four comprehension forms and `namedExpr` have dedicated handlers in
the source; the other constructors are representatives of the nodes that
fall through to `generic_visit`. -/
inductive Expr where
  | name (id : String) (ctx : Ctx)
  | constant
  | binOp (left : Expr) (right : Expr)
  | call (func : Expr) (args : List Expr)
  | attr (value : Expr) (attrName : String) (ctx : Ctx)
  | subscript (value : Expr) (slice : Expr) (ctx : Ctx)
  | tuple (elts : List Expr) (ctx : Ctx)
  | lambda (args : Arguments) (body : Expr)
  | listComp (elt : Expr) (generators : List Comprehension)
  | setComp (elt : Expr) (generators : List Comprehension)
  | generatorExp (elt : Expr) (generators : List Comprehension)
  | dictComp (key : Expr) (value : Expr) (generators : List Comprehension)
  | namedExpr (target : Expr) (value : Expr)

/-- An `ast.comprehension` generator clause: `target`, `iter`, `ifs`. -/
inductive Comprehension where
  | mk (target : Expr) (iter : Expr) (ifs : List Expr)

/-- An `ast.arg`: the parameter name and its (never visited) annotation
expression, here called `annot`. -/
inductive Arg where
  | mk (arg : String) (annot : Option Expr)

/-- An `ast.arguments` parameter list, with the fields in the order the
source's `visit_arguments` reads them. -/
inductive Arguments where
  | mk (posonlyargs : List Arg) (args : List Arg) (vararg : Option Arg)
      (kwonlyargs : List Arg) (kw_defaults : List (Option Expr))
      (kwarg : Option Arg) (defaults : List Expr)

/-- Statement nodes of the embedded AST fragment.  Function, class,
assignment and import forms have dedicated handlers in the source;
`ret`, `exprStmt` and `passStmt` fall through to `generic_visit`. -/
inductive Stmt where
  | functionDef (name : String) (args : Arguments) (body : List Stmt)
  | asyncFunctionDef (name : String) (args : Arguments) (body : List Stmt)
  | classDef (name : String) (bases : List Expr) (body : List Stmt)
  | ret (value : Option Expr)
  | assign (targets : List Expr) (value : Expr)
  | augAssign (target : Expr) (value : Expr)
  | annAssign (target : Expr) (annot : Expr) (value : Option Expr)
  | importStmt (names : List Alias)
  | importFrom (names : List Alias)
  | exprStmt (value : Expr)
  | passStmt

end

/-- One scope frame: the dict with keys "defs" (a set) and
"is_comprehension" (a bool). -/
structure Scope where
  defs : Finset String
  is_comprehension : Bool
  deriving DecidableEq

/-- The visitor's mutable state: `self.refs` and `self.scopes`
(top of the stack at the head of the list, see the header comment). -/
structure State where
  refs : Finset String
  scopes : List Scope
  deriving DecidableEq

/-- Method `_push_scope`: append a fresh empty frame with the given
comprehension flag. -/
def pushScope (s : State) (isComp : Bool) : State :=
  { s with scopes := ⟨∅, isComp⟩ :: s.scopes }

/-- Method `_pop_scope`: drop the top frame. -/
def popScope (s : State) : State :=
  { s with scopes := s.scopes.tail }

/-- Method `_handle_ref name`: add `name` to `refs` unless some frame
on the stack defines it. -/
def handleRef (s : State) (name : String) : State :=
  if s.scopes.any (fun scope => name ∈ scope.defs) then s
  else { s with refs := insert name s.refs }

/-- Adding `name` to the defs of the top frame, Python
`scopes[-1]["defs"].add(name)` (no-op on an empty stack, which never
occurs). -/
def defineTop (s : State) (name : String) : State :=
  match s.scopes with
  | [] => s
  | scope :: rest => { s with scopes := { scope with defs := insert name scope.defs } :: rest }

/-- Comprehension flag of the top frame, Python
`scopes[-1]["is_comprehension"]` (false on an empty stack, which never
occurs). -/
def topIsComprehension (s : State) : Bool :=
  match s.scopes with
  | [] => false
  | scope :: _ => scope.is_comprehension

/-- The walrus leak target: `next(scope for scope in reversed(self.scopes)
if not scope["is_comprehension"])`, and adding `name` to that frame's
`defs`.  The scan is top-down, which is head-to-last here.  (Unchanged
when every frame is a comprehension frame, which never occurs: the global
frame is not one.) -/
def defineInNearestNonComprehension : List Scope → String → List Scope
  | [], _ => []
  | scope :: rest, name =>
    if scope.is_comprehension then scope :: defineInNearestNonComprehension rest name
    else { scope with defs := insert name scope.defs } :: rest

/-- The load half of `visit_AugAssign`: `if isinstance(node.target,
ast.Name): self._handle_ref(node.target.id)`. -/
def augAssignLoad (s : State) : Expr → State
  | .name id _ => handleRef s id
  | _ => s

/-- The name bound by a plain `import`:
`alias.asname or alias.name.split(".")[0]`. -/
def importBoundName (a : Alias) : String :=
  match a.asname with
  | some n => n
  | none => (a.name.splitOn ".").headD ""

/-- The name bound by a `from ... import`: `alias.asname or alias.name`. -/
def importFromBoundName (a : Alias) : String :=
  match a.asname with
  | some n => n
  | none => a.name

mutual

/-- Dispatch on expression nodes.  `visit_Name`, `visit_Lambda`, the
comprehension handlers and `visit_NamedExpr` are the source's handlers;
every other case is `generic_visit` (children in field order).  The
bodies of `visit_ListComp` / `visit_SetComp` / `visit_GeneratorExp`
inline the shared `_visit_comprehension_expr` helper. -/
def visitExpr : State → Expr → State
  | s, .name id ctx =>
    match ctx with
    | .store => defineTop s id
    | .load => handleRef s id
    | .del => s
  | s, .constant => s
  | s, .binOp left right => visitExpr (visitExpr s left) right
  | s, .call func args => visitExprList (visitExpr s func) args
  | s, .attr value _ _ => visitExpr s value
  | s, .subscript value slice _ => visitExpr (visitExpr s value) slice
  | s, .tuple elts _ => visitExprList s elts
  | s, .lambda args body =>
    popScope (visitExpr (visitArguments (pushScope s false) args) body)
  | s, .listComp elt generators =>
    popScope (visitExpr (visitComprehensionList (pushScope s true) generators) elt)
  | s, .setComp elt generators =>
    popScope (visitExpr (visitComprehensionList (pushScope s true) generators) elt)
  | s, .generatorExp elt generators =>
    popScope (visitExpr (visitComprehensionList (pushScope s true) generators) elt)
  | s, .dictComp key value generators =>
    popScope (visitExpr (visitExpr (visitComprehensionList (pushScope s true) generators) key) value)
  | s, .namedExpr target value =>
    match target with
    | .name id ctx =>
      let s1 := visitExpr s value
      if topIsComprehension s1 then
        { s1 with scopes := defineInNearestNonComprehension s1.scopes id }
      else defineOrRef s1 id ctx
    | t =>
      let s1 := visitExpr s value
      visitExpr s1 t

/-- Visit a list of expressions in order (`generic_visit` over a list
field, or an explicit loop in a handler). -/
def visitExprList : State → List Expr → State
  | s, [] => s
  | s, e :: es => visitExprList (visitExpr s e) es

/-- Visit an optional expression (`if x is not None: self.visit(x)`). -/
def visitOptExpr : State → Option Expr → State
  | s, none => s
  | s, some e => visitExpr s e

/-- Visit `kw_defaults`, skipping the `None` entries. -/
def visitOptExprList : State → List (Option Expr) → State
  | s, [] => s
  | s, d :: ds => visitOptExprList (visitOptExpr s d) ds

/-- Handler `visit_comprehension`: iter first, then target, then the
filters. -/
def visitComprehension : State → Comprehension → State
  | s, .mk target iter ifs => visitExprList (visitExpr (visitExpr s iter) target) ifs

/-- Visit the generator clauses of a comprehension in order. -/
def visitComprehensionList : State → List Comprehension → State
  | s, [] => s
  | s, g :: gs => visitComprehensionList (visitComprehension s g) gs

/-- Handler `visit_arg`: define the parameter name in the top frame;
the annotation is never visited. -/
def visitArg : State → Arg → State
  | s, .mk arg _ => defineTop s arg

/-- Visit a list of `arg` nodes in order. -/
def visitArgList : State → List Arg → State
  | s, [] => s
  | s, a :: as_ => visitArgList (visitArg s a) as_

/-- Visit an optional `arg` node (`vararg` / `kwarg`). -/
def visitOptArg : State → Option Arg → State
  | s, none => s
  | s, some a => visitArg s a

/-- Handler `visit_arguments`: defaults and kw_defaults first, then
posonlyargs, args, vararg, kwonlyargs, kwarg. -/
def visitArguments : State → Arguments → State
  | s, .mk posonlyargs args vararg kwonlyargs kw_defaults kwarg defaults =>
    visitOptArg
      (visitArgList
        (visitOptArg
          (visitArgList
            (visitArgList
              (visitOptExprList (visitExprList s defaults) kw_defaults)
              posonlyargs)
            args)
          vararg)
        kwonlyargs)
      kwarg

/-- Dispatch on statement nodes.  The bodies of `visit_FunctionDef` /
`visit_AsyncFunctionDef` inline the shared `_visit_function_def` helper
(define the name in the current frame, push, `generic_visit` = args then
body, pop); `visit_ClassDef` follows the same pattern with the base
expressions visited inside the pushed frame. -/
def visitStmt : State → Stmt → State
  | s, .functionDef name args body =>
    popScope (visitStmtList (visitArguments (pushScope (defineTop s name) false) args) body)
  | s, .asyncFunctionDef name args body =>
    popScope (visitStmtList (visitArguments (pushScope (defineTop s name) false) args) body)
  | s, .classDef name bases body =>
    popScope (visitStmtList (visitExprList (pushScope (defineTop s name) false) bases) body)
  | s, .ret value => visitOptExpr s value
  | s, .assign targets value => visitExprList (visitExpr s value) targets
  | s, .augAssign target value =>
    visitExpr (augAssignLoad (visitExpr s value) target) target
  | s, .annAssign target _ value => visitExpr (visitOptExpr s value) target
  | s, .importStmt names =>
    names.foldl (fun acc a => defineTop acc (importBoundName a)) s
  | s, .importFrom names =>
    names.foldl (fun acc a => defineTop acc (importFromBoundName a)) s
  | s, .exprStmt value => visitExpr s value
  | s, .passStmt => s

/-- Visit a list of statements in order (`generic_visit` over a body). -/
def visitStmtList : State → List Stmt → State
  | s, [] => s
  | s, st :: sts => visitStmtList (visitStmt s st) sts

/-- Handler `visit_Name` applied to a bare identifier with an explicit
context: define on store, classify on load.  Used for the walrus
fall-through target. -/
def defineOrRef : State → String → Ctx → State
  | s, id, .store => defineTop s id
  | s, id, .load => handleRef s id
  | s, _, .del => s

end

/-- Constructor of `GlobalsVisitor`: empty `refs`, empty stack, then
one `_push_scope` call for the global frame. -/
def initState : State :=
  pushScope { refs := ∅, scopes := [] } false

/-- Running the visitor on a parsed module: `Module` has no dedicated
handler, so `generic_visit` visits the statement list. -/
def runVisitor (tree : List Stmt) : State :=
  visitStmtList initState tree

/-- Python `visitor.scopes[0]["defs"]`: the global frame is the bottom
of the stack, i.e. the last element in this head-at-top
representation. -/
def globalDefs (s : State) : Finset String :=
  match s.scopes.getLast? with
  | some scope => scope.defs
  | none => ∅

/-- The module-level result expression:
`(visitor.refs - builtin_names, visitor.scopes[0]["defs"])`. -/
def scanGlobals (tree : List Stmt) (builtin_names : Finset String) :
    Finset String × Finset String :=
  ((runVisitor tree).refs \ builtin_names, globalDefs (runVisitor tree))

/-! ### Frame-wise evolution of the scope stack

Visiting any complete subtree returns the stack to its entry shape:
the same number of frames, each with the same `is_comprehension` flag
and a (possibly grown) `defs` set.  `ScopeLE` is that frame-wise
relation, `ScopesLE` its lift to stacks. -/

/-- Frame evolution: `defs` only grows, the flag is unchanged. -/
def ScopeLE (a b : Scope) : Prop :=
  a.defs ⊆ b.defs ∧ a.is_comprehension = b.is_comprehension

/-- Stack evolution: frame-wise `ScopeLE` (in particular, same depth). -/
def ScopesLE (l1 l2 : List Scope) : Prop :=
  List.Forall₂ ScopeLE l1 l2

theorem scopeLE_refl (a : Scope) : ScopeLE a a := ⟨Finset.Subset.refl _, rfl⟩

theorem scopeLE_trans {a b c : Scope} (h1 : ScopeLE a b) (h2 : ScopeLE b c) :
    ScopeLE a c :=
  ⟨Finset.Subset.trans h1.1 h2.1, h1.2.trans h2.2⟩

theorem scopesLE_refl : ∀ l : List Scope, ScopesLE l l
  | [] => List.Forall₂.nil
  | a :: l => List.Forall₂.cons (scopeLE_refl a) (scopesLE_refl l)

theorem scopesLE_trans : ∀ {l1 l2 l3 : List Scope},
    ScopesLE l1 l2 → ScopesLE l2 l3 → ScopesLE l1 l3
  | _, _, _, List.Forall₂.nil, List.Forall₂.nil => List.Forall₂.nil
  | _, _, _, List.Forall₂.cons h1 t1, List.Forall₂.cons h2 t2 =>
    List.Forall₂.cons (scopeLE_trans h1 h2) (scopesLE_trans t1 t2)

theorem scopesLE_length {l1 l2 : List Scope} (h : ScopesLE l1 l2) :
    l1.length = l2.length :=
  List.Forall₂.length_eq h

theorem scopesLE_flags : ∀ {l1 l2 : List Scope}, ScopesLE l1 l2 →
    l1.map Scope.is_comprehension = l2.map Scope.is_comprehension
  | _, _, List.Forall₂.nil => rfl
  | _, _, List.Forall₂.cons h t => by
    simp only [List.map_cons, h.2, scopesLE_flags t]

/-- Popping after working under one pushed frame recovers an evolution
of the original stack. -/
theorem scopesLE_cons_tail {a : Scope} {l1 l2 : List Scope}
    (h : ScopesLE (a :: l1) l2) : ScopesLE l1 l2.tail := by
  cases h with
  | cons hab t => exact t

theorem defineTop_refs (s : State) (n : String) : (defineTop s n).refs = s.refs := by
  cases h : s.scopes <;> simp [defineTop, h]

theorem handleRef_scopes (s : State) (n : String) :
    (handleRef s n).scopes = s.scopes := by
  unfold handleRef; split <;> rfl

theorem popScope_refs (s : State) : (popScope s).refs = s.refs := rfl

theorem scopesLE_defineTop (s : State) (n : String) :
    ScopesLE s.scopes (defineTop s n).scopes := by
  cases h : s.scopes with
  | nil => simp [defineTop, h]; exact List.Forall₂.nil
  | cons scope rest =>
    simp only [defineTop, h]
    exact List.Forall₂.cons ⟨Finset.subset_insert _ _, rfl⟩ (scopesLE_refl rest)

theorem scopesLE_defineInNearestNonComprehension :
    ∀ (l : List Scope) (n : String), ScopesLE l (defineInNearestNonComprehension l n)
  | [], _ => List.Forall₂.nil
  | scope :: rest, n => by
    simp only [defineInNearestNonComprehension]
    split
    · exact List.Forall₂.cons (scopeLE_refl scope)
        (scopesLE_defineInNearestNonComprehension rest n)
    · exact List.Forall₂.cons ⟨Finset.subset_insert _ _, rfl⟩ (scopesLE_refl rest)

theorem scopesLE_foldl_defineTop (f : Alias → String) :
    ∀ (names : List Alias) (s : State),
      ScopesLE s.scopes ((names.foldl (fun acc a => defineTop acc (f a)) s).scopes)
  | [], s => scopesLE_refl s.scopes
  | a :: names, s => by
    simp only [List.foldl_cons]
    exact scopesLE_trans (scopesLE_defineTop s (f a))
      (scopesLE_foldl_defineTop f names (defineTop s (f a)))

theorem foldl_defineTop_refs (f : Alias → String) :
    ∀ (names : List Alias) (s : State),
      (names.foldl (fun acc a => defineTop acc (f a)) s).refs = s.refs
  | [], _ => rfl
  | a :: names, s => by
    simp only [List.foldl_cons]
    rw [foldl_defineTop_refs f names (defineTop s (f a)), defineTop_refs]

theorem scopesLE_defineOrRef (s : State) (id : String) :
    ∀ ctx : Ctx, ScopesLE s.scopes (defineOrRef s id ctx).scopes
  | .store => scopesLE_defineTop s id
  | .load => by
    show ScopesLE s.scopes (handleRef s id).scopes
    rw [handleRef_scopes]; exact scopesLE_refl _
  | .del => scopesLE_refl _

theorem scopesLE_augAssignLoad (s : State) (target : Expr) :
    ScopesLE s.scopes (augAssignLoad s target).scopes := by
  cases target <;> simp only [augAssignLoad, handleRef_scopes] <;> exact scopesLE_refl _

theorem visitArg_scopesLE (s : State) : ∀ a : Arg, ScopesLE s.scopes (visitArg s a).scopes
  | .mk arg _ => scopesLE_defineTop s arg

theorem visitArgList_scopesLE : ∀ (s : State) (as_ : List Arg),
    ScopesLE s.scopes (visitArgList s as_).scopes
  | _, [] => scopesLE_refl _
  | s, a :: as_ =>
    scopesLE_trans (visitArg_scopesLE s a) (visitArgList_scopesLE (visitArg s a) as_)

theorem visitOptArg_scopesLE (s : State) : ∀ a : Option Arg,
    ScopesLE s.scopes (visitOptArg s a).scopes
  | none => scopesLE_refl _
  | some a => visitArg_scopesLE s a

/-- Lemma `scopesLE_cons_tail` phrased for the push/visit/pop
pattern. -/
theorem scopesLE_pushed {s : State} {b : Bool} {x : State}
    (h : ScopesLE (pushScope s b).scopes x.scopes) :
    ScopesLE s.scopes x.scopes.tail :=
  scopesLE_cons_tail h

mutual

/-- Visiting any expression returns the scope stack to its entry shape
frame by frame, with only `defs` insertions. -/
theorem visitExpr_scopesLE : ∀ (s : State) (e : Expr),
    ScopesLE s.scopes (visitExpr s e).scopes
  | s, .name id .load => by
    show ScopesLE s.scopes (handleRef s id).scopes
    rw [handleRef_scopes]; exact scopesLE_refl _
  | s, .name id .store => scopesLE_defineTop s id
  | s, .name _ .del => scopesLE_refl _
  | _, .constant => scopesLE_refl _
  | s, .binOp left right =>
    scopesLE_trans (visitExpr_scopesLE s left) (visitExpr_scopesLE (visitExpr s left) right)
  | s, .call func args =>
    scopesLE_trans (visitExpr_scopesLE s func) (visitExprList_scopesLE (visitExpr s func) args)
  | s, .attr value _ _ => visitExpr_scopesLE s value
  | s, .subscript value slice _ =>
    scopesLE_trans (visitExpr_scopesLE s value) (visitExpr_scopesLE (visitExpr s value) slice)
  | s, .tuple elts _ => visitExprList_scopesLE s elts
  | s, .lambda args body =>
    scopesLE_pushed (scopesLE_trans (visitArguments_scopesLE (pushScope s false) args)
      (visitExpr_scopesLE _ body))
  | s, .listComp elt generators =>
    scopesLE_pushed (scopesLE_trans (visitComprehensionList_scopesLE (pushScope s true) generators)
      (visitExpr_scopesLE _ elt))
  | s, .setComp elt generators =>
    scopesLE_pushed (scopesLE_trans (visitComprehensionList_scopesLE (pushScope s true) generators)
      (visitExpr_scopesLE _ elt))
  | s, .generatorExp elt generators =>
    scopesLE_pushed (scopesLE_trans (visitComprehensionList_scopesLE (pushScope s true) generators)
      (visitExpr_scopesLE _ elt))
  | s, .dictComp key value generators =>
    scopesLE_pushed (scopesLE_trans (visitComprehensionList_scopesLE (pushScope s true) generators)
      (scopesLE_trans (visitExpr_scopesLE _ key) (visitExpr_scopesLE _ value)))
  | s, .namedExpr target value => by
    cases target with
    | name id ctx =>
      simp only [visitExpr]
      split
      · exact scopesLE_trans (visitExpr_scopesLE s value)
          (scopesLE_defineInNearestNonComprehension _ id)
      · exact scopesLE_trans (visitExpr_scopesLE s value)
          (scopesLE_defineOrRef _ id ctx)
    | constant =>
      exact scopesLE_trans (visitExpr_scopesLE s value) (visitExpr_scopesLE _ _)
    | binOp l r =>
      exact scopesLE_trans (visitExpr_scopesLE s value) (visitExpr_scopesLE _ _)
    | call f a =>
      exact scopesLE_trans (visitExpr_scopesLE s value) (visitExpr_scopesLE _ _)
    | attr v a c =>
      exact scopesLE_trans (visitExpr_scopesLE s value) (visitExpr_scopesLE _ _)
    | subscript v sl c =>
      exact scopesLE_trans (visitExpr_scopesLE s value) (visitExpr_scopesLE _ _)
    | tuple el c =>
      exact scopesLE_trans (visitExpr_scopesLE s value) (visitExpr_scopesLE _ _)
    | lambda a b =>
      exact scopesLE_trans (visitExpr_scopesLE s value) (visitExpr_scopesLE _ _)
    | listComp e g =>
      exact scopesLE_trans (visitExpr_scopesLE s value) (visitExpr_scopesLE _ _)
    | setComp e g =>
      exact scopesLE_trans (visitExpr_scopesLE s value) (visitExpr_scopesLE _ _)
    | generatorExp e g =>
      exact scopesLE_trans (visitExpr_scopesLE s value) (visitExpr_scopesLE _ _)
    | dictComp k v g =>
      exact scopesLE_trans (visitExpr_scopesLE s value) (visitExpr_scopesLE _ _)
    | namedExpr t v =>
      exact scopesLE_trans (visitExpr_scopesLE s value) (visitExpr_scopesLE _ _)

theorem visitExprList_scopesLE : ∀ (s : State) (es : List Expr),
    ScopesLE s.scopes (visitExprList s es).scopes
  | _, [] => scopesLE_refl _
  | s, e :: es =>
    scopesLE_trans (visitExpr_scopesLE s e) (visitExprList_scopesLE (visitExpr s e) es)

theorem visitOptExpr_scopesLE : ∀ (s : State) (e : Option Expr),
    ScopesLE s.scopes (visitOptExpr s e).scopes
  | _, none => scopesLE_refl _
  | s, some e => visitExpr_scopesLE s e

theorem visitOptExprList_scopesLE : ∀ (s : State) (es : List (Option Expr)),
    ScopesLE s.scopes (visitOptExprList s es).scopes
  | _, [] => scopesLE_refl _
  | s, d :: ds =>
    scopesLE_trans (visitOptExpr_scopesLE s d) (visitOptExprList_scopesLE (visitOptExpr s d) ds)

theorem visitComprehension_scopesLE : ∀ (s : State) (g : Comprehension),
    ScopesLE s.scopes (visitComprehension s g).scopes
  | s, .mk target iter ifs =>
    scopesLE_trans (visitExpr_scopesLE s iter)
      (scopesLE_trans (visitExpr_scopesLE (visitExpr s iter) target)
        (visitExprList_scopesLE _ ifs))

theorem visitComprehensionList_scopesLE : ∀ (s : State) (gs : List Comprehension),
    ScopesLE s.scopes (visitComprehensionList s gs).scopes
  | _, [] => scopesLE_refl _
  | s, g :: gs =>
    scopesLE_trans (visitComprehension_scopesLE s g)
      (visitComprehensionList_scopesLE (visitComprehension s g) gs)

theorem visitArguments_scopesLE : ∀ (s : State) (args : Arguments),
    ScopesLE s.scopes (visitArguments s args).scopes
  | s, .mk posonlyargs args vararg kwonlyargs kw_defaults kwarg defaults =>
    scopesLE_trans (visitExprList_scopesLE s defaults)
      (scopesLE_trans (visitOptExprList_scopesLE _ kw_defaults)
        (scopesLE_trans (visitArgList_scopesLE _ posonlyargs)
          (scopesLE_trans (visitArgList_scopesLE _ args)
            (scopesLE_trans (visitOptArg_scopesLE _ vararg)
              (scopesLE_trans (visitArgList_scopesLE _ kwonlyargs)
                (visitOptArg_scopesLE _ kwarg))))))

/-- Visiting any statement returns the scope stack to its entry shape
frame by frame, with only `defs` insertions. -/
theorem visitStmt_scopesLE : ∀ (s : State) (st : Stmt),
    ScopesLE s.scopes (visitStmt s st).scopes
  | s, .functionDef name args body =>
    scopesLE_trans (scopesLE_defineTop s name)
      (scopesLE_pushed (scopesLE_trans (visitArguments_scopesLE _ args)
        (visitStmtList_scopesLE _ body)))
  | s, .asyncFunctionDef name args body =>
    scopesLE_trans (scopesLE_defineTop s name)
      (scopesLE_pushed (scopesLE_trans (visitArguments_scopesLE _ args)
        (visitStmtList_scopesLE _ body)))
  | s, .classDef name bases body =>
    scopesLE_trans (scopesLE_defineTop s name)
      (scopesLE_pushed (scopesLE_trans (visitExprList_scopesLE _ bases)
        (visitStmtList_scopesLE _ body)))
  | s, .ret value => visitOptExpr_scopesLE s value
  | s, .assign targets value =>
    scopesLE_trans (visitExpr_scopesLE s value) (visitExprList_scopesLE _ targets)
  | s, .augAssign target value =>
    scopesLE_trans (visitExpr_scopesLE s value)
      (scopesLE_trans (scopesLE_augAssignLoad _ target) (visitExpr_scopesLE _ target))
  | s, .annAssign target _ value =>
    scopesLE_trans (visitOptExpr_scopesLE s value) (visitExpr_scopesLE _ target)
  | s, .importStmt names => scopesLE_foldl_defineTop importBoundName names s
  | s, .importFrom names => scopesLE_foldl_defineTop importFromBoundName names s
  | s, .exprStmt value => visitExpr_scopesLE s value
  | _, .passStmt => scopesLE_refl _

theorem visitStmtList_scopesLE : ∀ (s : State) (sts : List Stmt),
    ScopesLE s.scopes (visitStmtList s sts).scopes
  | _, [] => scopesLE_refl _
  | s, st :: sts =>
    scopesLE_trans (visitStmt_scopesLE s st) (visitStmtList_scopesLE (visitStmt s st) sts)

end

/-! ### A name defined on the stack never becomes a free reference

`Defined n l` says some frame of the stack `l` defines `n`.  Since
frames only gain definitions and frames below the visiting position are
never removed, `Defined` persists through any subtree visit, and
`_handle_ref` never records a defined name; hence a defined name that is
not yet in `refs` never enters `refs`. -/

/-- Some frame of the stack defines `n` (the quantification of
`_handle_ref`'s `any` test). -/
def Defined (n : String) (l : List Scope) : Prop :=
  ∃ scope ∈ l, n ∈ scope.defs

/-- Persistence of `Defined` along frame-wise stack evolution. -/
theorem defined_mono {n : String} : ∀ {l1 l2 : List Scope},
    ScopesLE l1 l2 → Defined n l1 → Defined n l2
  | _, _, List.Forall₂.nil, h => h
  | _, _, List.Forall₂.cons hab t, h => by
    obtain ⟨sc, hsc, hin⟩ := h
    rcases List.mem_cons.mp hsc with rfl | hmem
    · exact ⟨_, List.mem_cons_self _ _, hab.1 hin⟩
    · obtain ⟨sc', hsc', hin'⟩ := defined_mono t ⟨sc, hmem, hin⟩
      exact ⟨sc', List.mem_cons_of_mem _ hsc', hin'⟩

theorem pushScope_defined {n : String} {s : State} {b : Bool}
    (h : Defined n s.scopes) : Defined n (pushScope s b).scopes := by
  obtain ⟨sc, hsc, hin⟩ := h
  exact ⟨sc, List.mem_cons_of_mem _ hsc, hin⟩

/-- Relation `Defined` is exactly the truth of the `any` test in
`_handle_ref`. -/
theorem defined_iff_any (n : String) (l : List Scope) :
    Defined n l ↔ l.any (fun scope => n ∈ scope.defs) = true := by
  simp [Defined, List.any_eq_true]

/-- Method `_handle_ref` never puts a name into `refs` that some frame
already defines. -/
theorem handleRef_no_new (s : State) (m n : String)
    (hd : Defined n s.scopes) (hr : n ∉ s.refs) : n ∉ (handleRef s m).refs := by
  unfold handleRef
  split
  · exact hr
  next h =>
    intro hmem
    rcases Finset.mem_insert.mp hmem with he | he
    · exact h (he ▸ (defined_iff_any n s.scopes).mp hd)
    · exact hr he

theorem defineOrRef_no_new (s : State) (id : String) (ctx : Ctx) (n : String)
    (hd : Defined n s.scopes) (hr : n ∉ s.refs) : n ∉ (defineOrRef s id ctx).refs := by
  cases ctx with
  | store => rw [show (defineOrRef s id Ctx.store).refs = (defineTop s id).refs from rfl,
      defineTop_refs]; exact hr
  | load => exact handleRef_no_new s id n hd hr
  | del => exact hr

theorem augAssignLoad_no_new (s : State) (target : Expr) (n : String)
    (hd : Defined n s.scopes) (hr : n ∉ s.refs) : n ∉ (augAssignLoad s target).refs := by
  cases target with
  | name id ctx => exact handleRef_no_new s id n hd hr
  | _ => exact hr

theorem visitArg_refs (s : State) : ∀ a : Arg, (visitArg s a).refs = s.refs
  | .mk arg _ => defineTop_refs s arg

theorem visitArgList_refs : ∀ (s : State) (as_ : List Arg),
    (visitArgList s as_).refs = s.refs
  | _, [] => rfl
  | s, a :: as_ => by
    rw [show visitArgList s (a :: as_) = visitArgList (visitArg s a) as_ from rfl,
      visitArgList_refs, visitArg_refs]

theorem visitOptArg_refs (s : State) : ∀ a : Option Arg, (visitOptArg s a).refs = s.refs
  | none => rfl
  | some a => visitArg_refs s a

mutual

/-- Visiting an expression never records a name that some frame on the
stack already defines. -/
theorem visitExpr_no_new_ref : ∀ (s : State) (e : Expr) (n : String),
    Defined n s.scopes → n ∉ s.refs → n ∉ (visitExpr s e).refs
  | s, .name id .load, n, hd, hr => handleRef_no_new s id n hd hr
  | s, .name id .store, n, _, hr => by
    show n ∉ (defineTop s id).refs
    rw [defineTop_refs]; exact hr
  | _, .name _ .del, _, _, hr => hr
  | _, .constant, _, _, hr => hr
  | s, .binOp left right, n, hd, hr =>
    visitExpr_no_new_ref _ right n (defined_mono (visitExpr_scopesLE s left) hd)
      (visitExpr_no_new_ref s left n hd hr)
  | s, .call func args, n, hd, hr =>
    visitExprList_no_new_ref _ args n (defined_mono (visitExpr_scopesLE s func) hd)
      (visitExpr_no_new_ref s func n hd hr)
  | s, .attr value _ _, n, hd, hr => visitExpr_no_new_ref s value n hd hr
  | s, .subscript value slice _, n, hd, hr =>
    visitExpr_no_new_ref _ slice n (defined_mono (visitExpr_scopesLE s value) hd)
      (visitExpr_no_new_ref s value n hd hr)
  | s, .tuple elts _, n, hd, hr => visitExprList_no_new_ref s elts n hd hr
  | s, .lambda args body, n, hd, hr =>
    visitExpr_no_new_ref _ body n
      (defined_mono (visitArguments_scopesLE (pushScope s false) args) (pushScope_defined hd))
      (visitArguments_no_new_ref (pushScope s false) args n (pushScope_defined hd) hr)
  | s, .listComp elt generators, n, hd, hr =>
    visitExpr_no_new_ref _ elt n
      (defined_mono (visitComprehensionList_scopesLE (pushScope s true) generators)
        (pushScope_defined hd))
      (visitComprehensionList_no_new_ref (pushScope s true) generators n
        (pushScope_defined hd) hr)
  | s, .setComp elt generators, n, hd, hr =>
    visitExpr_no_new_ref _ elt n
      (defined_mono (visitComprehensionList_scopesLE (pushScope s true) generators)
        (pushScope_defined hd))
      (visitComprehensionList_no_new_ref (pushScope s true) generators n
        (pushScope_defined hd) hr)
  | s, .generatorExp elt generators, n, hd, hr =>
    visitExpr_no_new_ref _ elt n
      (defined_mono (visitComprehensionList_scopesLE (pushScope s true) generators)
        (pushScope_defined hd))
      (visitComprehensionList_no_new_ref (pushScope s true) generators n
        (pushScope_defined hd) hr)
  | s, .dictComp key value generators, n, hd, hr =>
    visitExpr_no_new_ref _ value n
      (defined_mono (visitExpr_scopesLE _ key)
        (defined_mono (visitComprehensionList_scopesLE (pushScope s true) generators)
          (pushScope_defined hd)))
      (visitExpr_no_new_ref _ key n
        (defined_mono (visitComprehensionList_scopesLE (pushScope s true) generators)
          (pushScope_defined hd))
        (visitComprehensionList_no_new_ref (pushScope s true) generators n
          (pushScope_defined hd) hr))
  | s, .namedExpr target value, n, hd, hr => by
    cases target with
    | name id ctx =>
      simp only [visitExpr]
      split
      · exact visitExpr_no_new_ref s value n hd hr
      · exact defineOrRef_no_new _ id ctx n (defined_mono (visitExpr_scopesLE s value) hd)
          (visitExpr_no_new_ref s value n hd hr)
    | constant =>
      exact visitExpr_no_new_ref (visitExpr s value) (Expr.constant) n
        (defined_mono (visitExpr_scopesLE s value) hd)
        (visitExpr_no_new_ref s value n hd hr)
    | binOp l r =>
      exact visitExpr_no_new_ref (visitExpr s value) (Expr.binOp l r) n
        (defined_mono (visitExpr_scopesLE s value) hd)
        (visitExpr_no_new_ref s value n hd hr)
    | call f a =>
      exact visitExpr_no_new_ref (visitExpr s value) (Expr.call f a) n
        (defined_mono (visitExpr_scopesLE s value) hd)
        (visitExpr_no_new_ref s value n hd hr)
    | attr v a c =>
      exact visitExpr_no_new_ref (visitExpr s value) (Expr.attr v a c) n
        (defined_mono (visitExpr_scopesLE s value) hd)
        (visitExpr_no_new_ref s value n hd hr)
    | subscript v sl c =>
      exact visitExpr_no_new_ref (visitExpr s value) (Expr.subscript v sl c) n
        (defined_mono (visitExpr_scopesLE s value) hd)
        (visitExpr_no_new_ref s value n hd hr)
    | tuple el c =>
      exact visitExpr_no_new_ref (visitExpr s value) (Expr.tuple el c) n
        (defined_mono (visitExpr_scopesLE s value) hd)
        (visitExpr_no_new_ref s value n hd hr)
    | lambda a b =>
      exact visitExpr_no_new_ref (visitExpr s value) (Expr.lambda a b) n
        (defined_mono (visitExpr_scopesLE s value) hd)
        (visitExpr_no_new_ref s value n hd hr)
    | listComp e g =>
      exact visitExpr_no_new_ref (visitExpr s value) (Expr.listComp e g) n
        (defined_mono (visitExpr_scopesLE s value) hd)
        (visitExpr_no_new_ref s value n hd hr)
    | setComp e g =>
      exact visitExpr_no_new_ref (visitExpr s value) (Expr.setComp e g) n
        (defined_mono (visitExpr_scopesLE s value) hd)
        (visitExpr_no_new_ref s value n hd hr)
    | generatorExp e g =>
      exact visitExpr_no_new_ref (visitExpr s value) (Expr.generatorExp e g) n
        (defined_mono (visitExpr_scopesLE s value) hd)
        (visitExpr_no_new_ref s value n hd hr)
    | dictComp k v g =>
      exact visitExpr_no_new_ref (visitExpr s value) (Expr.dictComp k v g) n
        (defined_mono (visitExpr_scopesLE s value) hd)
        (visitExpr_no_new_ref s value n hd hr)
    | namedExpr t v =>
      exact visitExpr_no_new_ref (visitExpr s value) (Expr.namedExpr t v) n
        (defined_mono (visitExpr_scopesLE s value) hd)
        (visitExpr_no_new_ref s value n hd hr)

theorem visitExprList_no_new_ref : ∀ (s : State) (es : List Expr) (n : String),
    Defined n s.scopes → n ∉ s.refs → n ∉ (visitExprList s es).refs
  | _, [], _, _, hr => hr
  | s, e :: es, n, hd, hr =>
    visitExprList_no_new_ref _ es n (defined_mono (visitExpr_scopesLE s e) hd)
      (visitExpr_no_new_ref s e n hd hr)

theorem visitOptExpr_no_new_ref : ∀ (s : State) (e : Option Expr) (n : String),
    Defined n s.scopes → n ∉ s.refs → n ∉ (visitOptExpr s e).refs
  | _, none, _, _, hr => hr
  | s, some e, n, hd, hr => visitExpr_no_new_ref s e n hd hr

theorem visitOptExprList_no_new_ref : ∀ (s : State) (es : List (Option Expr)) (n : String),
    Defined n s.scopes → n ∉ s.refs → n ∉ (visitOptExprList s es).refs
  | _, [], _, _, hr => hr
  | s, d :: ds, n, hd, hr =>
    visitOptExprList_no_new_ref _ ds n (defined_mono (visitOptExpr_scopesLE s d) hd)
      (visitOptExpr_no_new_ref s d n hd hr)

theorem visitComprehension_no_new_ref : ∀ (s : State) (g : Comprehension) (n : String),
    Defined n s.scopes → n ∉ s.refs → n ∉ (visitComprehension s g).refs
  | s, .mk target iter ifs, n, hd, hr =>
    visitExprList_no_new_ref _ ifs n
      (defined_mono (visitExpr_scopesLE (visitExpr s iter) target)
        (defined_mono (visitExpr_scopesLE s iter) hd))
      (visitExpr_no_new_ref _ target n (defined_mono (visitExpr_scopesLE s iter) hd)
        (visitExpr_no_new_ref s iter n hd hr))

theorem visitComprehensionList_no_new_ref : ∀ (s : State) (gs : List Comprehension) (n : String),
    Defined n s.scopes → n ∉ s.refs → n ∉ (visitComprehensionList s gs).refs
  | _, [], _, _, hr => hr
  | s, g :: gs, n, hd, hr =>
    visitComprehensionList_no_new_ref _ gs n
      (defined_mono (visitComprehension_scopesLE s g) hd)
      (visitComprehension_no_new_ref s g n hd hr)

theorem visitArguments_no_new_ref : ∀ (s : State) (args : Arguments) (n : String),
    Defined n s.scopes → n ∉ s.refs → n ∉ (visitArguments s args).refs
  | s, .mk posonlyargs args vararg kwonlyargs kw_defaults kwarg defaults, n, hd, hr => by
    have h1 := visitExprList_no_new_ref s defaults n hd hr
    have d1 := defined_mono (visitExprList_scopesLE s defaults) hd
    have h2 := visitOptExprList_no_new_ref _ kw_defaults n d1 h1
    have d2 := defined_mono (visitOptExprList_scopesLE _ kw_defaults) d1
    show n ∉ (visitOptArg (visitArgList (visitOptArg (visitArgList (visitArgList
      (visitOptExprList (visitExprList s defaults) kw_defaults) posonlyargs) args)
      vararg) kwonlyargs) kwarg).refs
    rw [visitOptArg_refs, visitArgList_refs, visitOptArg_refs, visitArgList_refs,
      visitArgList_refs]
    exact h2

theorem visitStmt_no_new_ref : ∀ (s : State) (st : Stmt) (n : String),
    Defined n s.scopes → n ∉ s.refs → n ∉ (visitStmt s st).refs
  | s, .functionDef name args body, n, hd, hr => by
    have d0 : Defined n (pushScope (defineTop s name) false).scopes :=
      pushScope_defined (defined_mono (scopesLE_defineTop s name) hd)
    have r0 : n ∉ (pushScope (defineTop s name) false).refs := by
      show n ∉ (defineTop s name).refs
      rw [defineTop_refs]; exact hr
    exact visitStmtList_no_new_ref _ body n
      (defined_mono (visitArguments_scopesLE _ args) d0)
      (visitArguments_no_new_ref _ args n d0 r0)
  | s, .asyncFunctionDef name args body, n, hd, hr => by
    have d0 : Defined n (pushScope (defineTop s name) false).scopes :=
      pushScope_defined (defined_mono (scopesLE_defineTop s name) hd)
    have r0 : n ∉ (pushScope (defineTop s name) false).refs := by
      show n ∉ (defineTop s name).refs
      rw [defineTop_refs]; exact hr
    exact visitStmtList_no_new_ref _ body n
      (defined_mono (visitArguments_scopesLE _ args) d0)
      (visitArguments_no_new_ref _ args n d0 r0)
  | s, .classDef name bases body, n, hd, hr => by
    have d0 : Defined n (pushScope (defineTop s name) false).scopes :=
      pushScope_defined (defined_mono (scopesLE_defineTop s name) hd)
    have r0 : n ∉ (pushScope (defineTop s name) false).refs := by
      show n ∉ (defineTop s name).refs
      rw [defineTop_refs]; exact hr
    exact visitStmtList_no_new_ref _ body n
      (defined_mono (visitExprList_scopesLE _ bases) d0)
      (visitExprList_no_new_ref _ bases n d0 r0)
  | s, .ret value, n, hd, hr => visitOptExpr_no_new_ref s value n hd hr
  | s, .assign targets value, n, hd, hr =>
    visitExprList_no_new_ref _ targets n (defined_mono (visitExpr_scopesLE s value) hd)
      (visitExpr_no_new_ref s value n hd hr)
  | s, .augAssign target value, n, hd, hr =>
    visitExpr_no_new_ref _ target n
      (defined_mono (scopesLE_augAssignLoad _ target)
        (defined_mono (visitExpr_scopesLE s value) hd))
      (augAssignLoad_no_new _ target n (defined_mono (visitExpr_scopesLE s value) hd)
        (visitExpr_no_new_ref s value n hd hr))
  | s, .annAssign target _ value, n, hd, hr =>
    visitExpr_no_new_ref _ target n (defined_mono (visitOptExpr_scopesLE s value) hd)
      (visitOptExpr_no_new_ref s value n hd hr)
  | s, .importStmt names, n, _, hr => by
    rw [show visitStmt s (.importStmt names)
        = names.foldl (fun acc a => defineTop acc (importBoundName a)) s from rfl,
      foldl_defineTop_refs]
    exact hr
  | s, .importFrom names, n, _, hr => by
    rw [show visitStmt s (.importFrom names)
        = names.foldl (fun acc a => defineTop acc (importFromBoundName a)) s from rfl,
      foldl_defineTop_refs]
    exact hr
  | s, .exprStmt value, n, hd, hr => visitExpr_no_new_ref s value n hd hr
  | _, .passStmt, _, _, hr => hr

theorem visitStmtList_no_new_ref : ∀ (s : State) (sts : List Stmt) (n : String),
    Defined n s.scopes → n ∉ s.refs → n ∉ (visitStmtList s sts).refs
  | _, [], _, _, hr => hr
  | s, st :: sts, n, hd, hr =>
    visitStmtList_no_new_ref _ sts n (defined_mono (visitStmt_scopesLE s st) hd)
      (visitStmt_no_new_ref s st n hd hr)

end

/-! ### Identifiers reachable by the traversal

`exprIds` / `stmtIds` collect every identifier occurrence the visitor
can ever insert into `refs` or into a frame's `defs`.  Annotation
positions — `AnnAssign.annotation` and `arg.annotation` (`annot` here) —
are deliberately NOT collected, because the corresponding handlers never
visit them; the boundedness lemma below therefore proves that a name
occurring only inside such annotations is never recorded anywhere. -/

mutual

def exprIds : Expr → Finset String
  | .name id _ => {id}
  | .constant => ∅
  | .binOp left right => exprIds left ∪ exprIds right
  | .call func args => exprIds func ∪ exprListIds args
  | .attr value _ _ => exprIds value
  | .subscript value slice _ => exprIds value ∪ exprIds slice
  | .tuple elts _ => exprListIds elts
  | .lambda args body => argumentsIds args ∪ exprIds body
  | .listComp elt generators => exprIds elt ∪ compListIds generators
  | .setComp elt generators => exprIds elt ∪ compListIds generators
  | .generatorExp elt generators => exprIds elt ∪ compListIds generators
  | .dictComp key value generators => exprIds key ∪ exprIds value ∪ compListIds generators
  | .namedExpr target value => exprIds target ∪ exprIds value

def exprListIds : List Expr → Finset String
  | [] => ∅
  | e :: es => exprIds e ∪ exprListIds es

def optExprIds : Option Expr → Finset String
  | none => ∅
  | some e => exprIds e

def optExprListIds : List (Option Expr) → Finset String
  | [] => ∅
  | d :: ds => optExprIds d ∪ optExprListIds ds

def compIds : Comprehension → Finset String
  | .mk target iter ifs => exprIds target ∪ exprIds iter ∪ exprListIds ifs

def compListIds : List Comprehension → Finset String
  | [] => ∅
  | g :: gs => compIds g ∪ compListIds gs

/-- Only the parameter name: the annotation is never visited. -/
def argIds : Arg → Finset String
  | .mk arg _ => {arg}

def argListIds : List Arg → Finset String
  | [] => ∅
  | a :: as_ => argIds a ∪ argListIds as_

def optArgIds : Option Arg → Finset String
  | none => ∅
  | some a => argIds a

def argumentsIds : Arguments → Finset String
  | .mk posonlyargs args vararg kwonlyargs kw_defaults kwarg defaults =>
    argListIds posonlyargs ∪ argListIds args ∪ optArgIds vararg ∪ argListIds kwonlyargs
      ∪ optExprListIds kw_defaults ∪ optArgIds kwarg ∪ exprListIds defaults

def stmtIds : Stmt → Finset String
  | .functionDef name args body => insert name (argumentsIds args ∪ stmtListIds body)
  | .asyncFunctionDef name args body => insert name (argumentsIds args ∪ stmtListIds body)
  | .classDef name bases body => insert name (exprListIds bases ∪ stmtListIds body)
  | .ret value => optExprIds value
  | .assign targets value => exprListIds targets ∪ exprIds value
  | .augAssign target value => exprIds target ∪ exprIds value
  | .annAssign target _ value => exprIds target ∪ optExprIds value
  | .importStmt names => (names.map importBoundName).toFinset
  | .importFrom names => (names.map importFromBoundName).toFinset
  | .exprStmt value => exprIds value
  | .passStmt => ∅

def stmtListIds : List Stmt → Finset String
  | [] => ∅
  | st :: sts => stmtIds st ∪ stmtListIds sts

end

/-- Every identifier recorded anywhere in the state lies in `A`. -/
def Bounded (A : Finset String) (s : State) : Prop :=
  s.refs ⊆ A ∧ ∀ scope ∈ s.scopes, scope.defs ⊆ A

theorem bounded_mono {A B : Finset String} {s : State}
    (h : Bounded A s) (hAB : A ⊆ B) : Bounded B s :=
  ⟨h.1.trans hAB, fun scope hsc => (h.2 scope hsc).trans hAB⟩

theorem bounded_defineTop {A B : Finset String} {s : State} {n : String}
    (h : Bounded A s) (hn : n ∈ B) (hAB : A ⊆ B) : Bounded B (defineTop s n) := by
  rcases h with ⟨href, hdefs⟩
  refine ⟨by rw [defineTop_refs]; exact href.trans hAB, ?_⟩
  intro scope hscope
  cases hs : s.scopes with
  | nil =>
    simp only [defineTop, hs] at hscope
    exact absurd hscope (List.not_mem_nil scope)
  | cons sc rest =>
    simp only [defineTop, hs] at hscope
    rcases List.mem_cons.mp hscope with rfl | hmem
    · exact Finset.insert_subset hn ((hdefs sc (hs ▸ List.mem_cons_self sc rest)).trans hAB)
    · exact (hdefs scope (hs ▸ List.mem_cons_of_mem sc hmem)).trans hAB

theorem bounded_handleRef {A B : Finset String} {s : State} {m : String}
    (h : Bounded A s) (hm : m ∈ B) (hAB : A ⊆ B) : Bounded B (handleRef s m) := by
  unfold handleRef
  split
  · exact bounded_mono h hAB
  · exact ⟨Finset.insert_subset hm (h.1.trans hAB),
      fun scope hsc => (h.2 scope hsc).trans hAB⟩

theorem bounded_pushScope {A : Finset String} {s : State} {b : Bool}
    (h : Bounded A s) : Bounded A (pushScope s b) := by
  refine ⟨h.1, ?_⟩
  intro scope hscope
  rcases List.mem_cons.mp hscope with rfl | hmem
  · exact Finset.empty_subset _
  · exact h.2 scope hmem

theorem bounded_popScope {A : Finset String} {s : State}
    (h : Bounded A s) : Bounded A (popScope s) := by
  refine ⟨h.1, ?_⟩
  intro scope hscope
  cases hs : s.scopes with
  | nil => rw [show (popScope s).scopes = s.scopes.tail from rfl, hs] at hscope; cases hscope
  | cons sc rest =>
    rw [show (popScope s).scopes = s.scopes.tail from rfl, hs] at hscope
    exact h.2 scope (hs ▸ List.mem_cons_of_mem sc hscope)

theorem defineInNearestNonComprehension_defs_sub {A B : Finset String} {n : String} :
    ∀ (l : List Scope), (∀ scope ∈ l, scope.defs ⊆ A) → n ∈ B → A ⊆ B →
      ∀ scope ∈ defineInNearestNonComprehension l n, scope.defs ⊆ B
  | [], _, _, _ => by intro scope hscope; cases hscope
  | sc :: rest, h, hn, hAB => by
    intro scope hscope
    simp only [defineInNearestNonComprehension] at hscope
    split at hscope
    · rcases List.mem_cons.mp hscope with hsc | hmem
      · rw [hsc]; exact (h sc (List.mem_cons_self sc rest)).trans hAB
      · exact defineInNearestNonComprehension_defs_sub rest
          (fun a ha => h a (List.mem_cons_of_mem sc ha)) hn hAB scope hmem
    · rcases List.mem_cons.mp hscope with hsc | hmem
      · rw [hsc]; exact Finset.insert_subset hn ((h sc (List.mem_cons_self sc rest)).trans hAB)
      · exact (h scope (List.mem_cons_of_mem sc hmem)).trans hAB

theorem bounded_defineInNearest {A B : Finset String} {s : State} {n : String}
    (h : Bounded A s) (hn : n ∈ B) (hAB : A ⊆ B) :
    Bounded B { s with scopes := defineInNearestNonComprehension s.scopes n } :=
  ⟨h.1.trans hAB, defineInNearestNonComprehension_defs_sub s.scopes h.2 hn hAB⟩

theorem bounded_defineOrRef {A : Finset String} {s : State} {id : String}
    (h : Bounded A s) : ∀ ctx : Ctx, Bounded (A ∪ {id}) (defineOrRef s id ctx)
  | .store => bounded_defineTop h (by simp) Finset.subset_union_left
  | .load => bounded_handleRef h (by simp) Finset.subset_union_left
  | .del => bounded_mono h Finset.subset_union_left

theorem bounded_augAssignLoad {A : Finset String} {s : State}
    (h : Bounded A s) : ∀ target : Expr, Bounded (A ∪ exprIds target) (augAssignLoad s target)
  | .name id _ => bounded_handleRef h (by simp [exprIds]) Finset.subset_union_left
  | .constant => bounded_mono h Finset.subset_union_left
  | .binOp _ _ => bounded_mono h Finset.subset_union_left
  | .call _ _ => bounded_mono h Finset.subset_union_left
  | .attr _ _ _ => bounded_mono h Finset.subset_union_left
  | .subscript _ _ _ => bounded_mono h Finset.subset_union_left
  | .tuple _ _ => bounded_mono h Finset.subset_union_left
  | .lambda _ _ => bounded_mono h Finset.subset_union_left
  | .listComp _ _ => bounded_mono h Finset.subset_union_left
  | .setComp _ _ => bounded_mono h Finset.subset_union_left
  | .generatorExp _ _ => bounded_mono h Finset.subset_union_left
  | .dictComp _ _ _ => bounded_mono h Finset.subset_union_left
  | .namedExpr _ _ => bounded_mono h Finset.subset_union_left

theorem bounded_foldl_defineTop (f : Alias → String) :
    ∀ (names : List Alias) {A : Finset String} (s : State), Bounded A s →
      Bounded (A ∪ (names.map f).toFinset)
        (names.foldl (fun acc a => defineTop acc (f a)) s)
  | [], _, _, h => bounded_mono h Finset.subset_union_left
  | a :: names, A, s, h => by
    have h1 : Bounded (A ∪ {f a}) (defineTop s (f a)) :=
      bounded_defineTop h (by simp) Finset.subset_union_left
    have h2 := bounded_foldl_defineTop f names (defineTop s (f a)) h1
    refine bounded_mono h2 ?_
    intro x hx
    simp only [Finset.mem_union, Finset.mem_singleton, List.toFinset_cons, List.map_cons,
      Finset.mem_insert, List.mem_toFinset] at hx ⊢
    tauto

theorem union_assoc_sub {A N1 N2 : Finset String} : (A ∪ N1) ∪ N2 ⊆ A ∪ (N1 ∪ N2) := by
  intro x hx
  simp only [Finset.mem_union] at hx ⊢
  tauto

theorem union_swap_sub {A N1 N2 : Finset String} : (A ∪ N1) ∪ N2 ⊆ A ∪ (N2 ∪ N1) := by
  intro x hx
  simp only [Finset.mem_union] at hx ⊢
  tauto

theorem union_comp_sub {A a b c : Finset String} :
    ((A ∪ c) ∪ a) ∪ b ⊆ A ∪ (a ∪ b ∪ c) := by
  intro x hx
  simp only [Finset.mem_union] at hx ⊢
  tauto

theorem union_func_sub {A ar bo : Finset String} {n : String} :
    (A ∪ {n}) ∪ ar ∪ bo ⊆ A ∪ insert n (ar ∪ bo) := by
  intro x hx
  simp only [Finset.mem_union, Finset.mem_insert, Finset.mem_singleton] at hx ⊢
  tauto

theorem union_aug_sub {A t v : Finset String} : ((A ∪ v) ∪ t) ∪ t ⊆ A ∪ (t ∪ v) := by
  intro x hx
  simp only [Finset.mem_union] at hx ⊢
  tauto

theorem union_args_sub {A d kd p a v k kw : Finset String} :
    ((((((A ∪ d) ∪ kd) ∪ p) ∪ a) ∪ v) ∪ k) ∪ kw
      ⊆ A ∪ (p ∪ a ∪ v ∪ k ∪ kd ∪ kw ∪ d) := by
  intro x hx
  simp only [Finset.mem_union] at hx ⊢
  tauto

theorem visitArg_bounded {A : Finset String} (s : State) :
    ∀ a : Arg, Bounded A s → Bounded (A ∪ argIds a) (visitArg s a)
  | .mk arg _, h => bounded_defineTop h (by simp [argIds]) Finset.subset_union_left

theorem visitArgList_bounded {A : Finset String} : ∀ (s : State) (as_ : List Arg),
    Bounded A s → Bounded (A ∪ argListIds as_) (visitArgList s as_)
  | _, [], h => bounded_mono h Finset.subset_union_left
  | s, a :: as_, h =>
    bounded_mono (visitArgList_bounded (visitArg s a) as_ (visitArg_bounded s a h))
      union_assoc_sub

theorem visitOptArg_bounded {A : Finset String} (s : State) :
    ∀ a : Option Arg, Bounded A s → Bounded (A ∪ optArgIds a) (visitOptArg s a)
  | none, h => bounded_mono h Finset.subset_union_left
  | some a, h => visitArg_bounded s a h

mutual

/-- Visiting an expression records only identifiers from `exprIds`
(which excludes annotation positions). -/
theorem visitExpr_bounded : ∀ {A : Finset String} (s : State) (e : Expr),
    Bounded A s → Bounded (A ∪ exprIds e) (visitExpr s e)
  | _, s, .name id .load, h => bounded_handleRef h (by simp [exprIds]) Finset.subset_union_left
  | _, s, .name id .store, h => bounded_defineTop h (by simp [exprIds]) Finset.subset_union_left
  | _, _, .name _ .del, h => bounded_mono h Finset.subset_union_left
  | _, _, .constant, h => bounded_mono h Finset.subset_union_left
  | _, s, .binOp left right, h =>
    bounded_mono (visitExpr_bounded _ right (visitExpr_bounded s left h)) union_assoc_sub
  | _, s, .call func args, h =>
    bounded_mono (visitExprList_bounded _ args (visitExpr_bounded s func h)) union_assoc_sub
  | _, s, .attr value _ _, h => visitExpr_bounded s value h
  | _, s, .subscript value slice _, h =>
    bounded_mono (visitExpr_bounded _ slice (visitExpr_bounded s value h)) union_assoc_sub
  | _, s, .tuple elts _, h => visitExprList_bounded s elts h
  | _, s, .lambda args body, h =>
    bounded_popScope (bounded_mono
      (visitExpr_bounded _ body (visitArguments_bounded _ args (bounded_pushScope h)))
      union_assoc_sub)
  | _, s, .listComp elt generators, h =>
    bounded_popScope (bounded_mono
      (visitExpr_bounded _ elt (visitComprehensionList_bounded _ generators (bounded_pushScope h)))
      union_swap_sub)
  | _, s, .setComp elt generators, h =>
    bounded_popScope (bounded_mono
      (visitExpr_bounded _ elt (visitComprehensionList_bounded _ generators (bounded_pushScope h)))
      union_swap_sub)
  | _, s, .generatorExp elt generators, h =>
    bounded_popScope (bounded_mono
      (visitExpr_bounded _ elt (visitComprehensionList_bounded _ generators (bounded_pushScope h)))
      union_swap_sub)
  | _, s, .dictComp key value generators, h =>
    bounded_popScope (bounded_mono
      (visitExpr_bounded _ value (visitExpr_bounded _ key
        (visitComprehensionList_bounded _ generators (bounded_pushScope h))))
      union_comp_sub)
  | A, s, .namedExpr target value, h => by
    cases target with
    | name id ctx =>
      simp only [visitExpr]
      split
      · exact bounded_defineInNearest (visitExpr_bounded s value h) (by simp [exprIds])
          (by intro x hx; simp only [Finset.mem_union, exprIds] at hx ⊢; tauto)
      · exact bounded_mono (bounded_defineOrRef (visitExpr_bounded s value h) ctx)
          union_swap_sub
    | constant =>
      exact bounded_mono (visitExpr_bounded (visitExpr s value) Expr.constant
        (visitExpr_bounded s value h)) union_swap_sub
    | binOp l r =>
      exact bounded_mono (visitExpr_bounded (visitExpr s value) (Expr.binOp l r)
        (visitExpr_bounded s value h)) union_swap_sub
    | call f a =>
      exact bounded_mono (visitExpr_bounded (visitExpr s value) (Expr.call f a)
        (visitExpr_bounded s value h)) union_swap_sub
    | attr v a c =>
      exact bounded_mono (visitExpr_bounded (visitExpr s value) (Expr.attr v a c)
        (visitExpr_bounded s value h)) union_swap_sub
    | subscript v sl c =>
      exact bounded_mono (visitExpr_bounded (visitExpr s value) (Expr.subscript v sl c)
        (visitExpr_bounded s value h)) union_swap_sub
    | tuple el c =>
      exact bounded_mono (visitExpr_bounded (visitExpr s value) (Expr.tuple el c)
        (visitExpr_bounded s value h)) union_swap_sub
    | lambda a b =>
      exact bounded_mono (visitExpr_bounded (visitExpr s value) (Expr.lambda a b)
        (visitExpr_bounded s value h)) union_swap_sub
    | listComp e g =>
      exact bounded_mono (visitExpr_bounded (visitExpr s value) (Expr.listComp e g)
        (visitExpr_bounded s value h)) union_swap_sub
    | setComp e g =>
      exact bounded_mono (visitExpr_bounded (visitExpr s value) (Expr.setComp e g)
        (visitExpr_bounded s value h)) union_swap_sub
    | generatorExp e g =>
      exact bounded_mono (visitExpr_bounded (visitExpr s value) (Expr.generatorExp e g)
        (visitExpr_bounded s value h)) union_swap_sub
    | dictComp k v g =>
      exact bounded_mono (visitExpr_bounded (visitExpr s value) (Expr.dictComp k v g)
        (visitExpr_bounded s value h)) union_swap_sub
    | namedExpr t v =>
      exact bounded_mono (visitExpr_bounded (visitExpr s value) (Expr.namedExpr t v)
        (visitExpr_bounded s value h)) union_swap_sub

theorem visitExprList_bounded : ∀ {A : Finset String} (s : State) (es : List Expr),
    Bounded A s → Bounded (A ∪ exprListIds es) (visitExprList s es)
  | _, _, [], h => bounded_mono h Finset.subset_union_left
  | _, s, e :: es, h =>
    bounded_mono (visitExprList_bounded _ es (visitExpr_bounded s e h)) union_assoc_sub

theorem visitOptExpr_bounded : ∀ {A : Finset String} (s : State) (e : Option Expr),
    Bounded A s → Bounded (A ∪ optExprIds e) (visitOptExpr s e)
  | _, _, none, h => bounded_mono h Finset.subset_union_left
  | _, s, some e, h => visitExpr_bounded s e h

theorem visitOptExprList_bounded : ∀ {A : Finset String} (s : State) (es : List (Option Expr)),
    Bounded A s → Bounded (A ∪ optExprListIds es) (visitOptExprList s es)
  | _, _, [], h => bounded_mono h Finset.subset_union_left
  | _, s, d :: ds, h =>
    bounded_mono (visitOptExprList_bounded _ ds (visitOptExpr_bounded s d h)) union_assoc_sub

theorem visitComprehension_bounded : ∀ {A : Finset String} (s : State) (g : Comprehension),
    Bounded A s → Bounded (A ∪ compIds g) (visitComprehension s g)
  | _, s, .mk target iter ifs, h =>
    bounded_mono (visitExprList_bounded _ ifs
      (visitExpr_bounded _ target (visitExpr_bounded s iter h)))
      (by intro x hx; simp only [Finset.mem_union, compIds] at hx ⊢; tauto)

theorem visitComprehensionList_bounded : ∀ {A : Finset String} (s : State)
    (gs : List Comprehension),
    Bounded A s → Bounded (A ∪ compListIds gs) (visitComprehensionList s gs)
  | _, _, [], h => bounded_mono h Finset.subset_union_left
  | _, s, g :: gs, h =>
    bounded_mono (visitComprehensionList_bounded _ gs (visitComprehension_bounded s g h))
      union_assoc_sub

theorem visitArguments_bounded : ∀ {A : Finset String} (s : State) (args : Arguments),
    Bounded A s → Bounded (A ∪ argumentsIds args) (visitArguments s args)
  | _, s, .mk posonlyargs args vararg kwonlyargs kw_defaults kwarg defaults, h =>
    bounded_mono
      (visitOptArg_bounded _ kwarg
        (visitArgList_bounded _ kwonlyargs
          (visitOptArg_bounded _ vararg
            (visitArgList_bounded _ args
              (visitArgList_bounded _ posonlyargs
                (visitOptExprList_bounded _ kw_defaults
                  (visitExprList_bounded s defaults h)))))))
      union_args_sub

/-- Visiting a statement records only identifiers from `stmtIds`
(which excludes annotation positions). -/
theorem visitStmt_bounded : ∀ {A : Finset String} (s : State) (st : Stmt),
    Bounded A s → Bounded (A ∪ stmtIds st) (visitStmt s st)
  | _, _, .functionDef name args body, h =>
    bounded_popScope (bounded_mono
      (visitStmtList_bounded _ body (visitArguments_bounded _ args (bounded_pushScope
        (bounded_defineTop h (Finset.mem_union_right _ (Finset.mem_singleton_self name))
          Finset.subset_union_left))))
      union_func_sub)
  | _, _, .asyncFunctionDef name args body, h =>
    bounded_popScope (bounded_mono
      (visitStmtList_bounded _ body (visitArguments_bounded _ args (bounded_pushScope
        (bounded_defineTop h (Finset.mem_union_right _ (Finset.mem_singleton_self name))
          Finset.subset_union_left))))
      union_func_sub)
  | _, _, .classDef name bases body, h =>
    bounded_popScope (bounded_mono
      (visitStmtList_bounded _ body (visitExprList_bounded _ bases (bounded_pushScope
        (bounded_defineTop h (Finset.mem_union_right _ (Finset.mem_singleton_self name))
          Finset.subset_union_left))))
      union_func_sub)
  | _, s, .ret value, h => visitOptExpr_bounded s value h
  | _, s, .assign targets value, h =>
    bounded_mono (visitExprList_bounded _ targets (visitExpr_bounded s value h))
      union_swap_sub
  | _, s, .augAssign target value, h =>
    bounded_mono (visitExpr_bounded _ target
      (bounded_augAssignLoad (visitExpr_bounded s value h) target)) union_aug_sub
  | _, s, .annAssign target _ value, h =>
    bounded_mono (visitExpr_bounded _ target (visitOptExpr_bounded s value h))
      union_swap_sub
  | _, s, .importStmt names, h => bounded_foldl_defineTop importBoundName names s h
  | _, s, .importFrom names, h => bounded_foldl_defineTop importFromBoundName names s h
  | _, s, .exprStmt value, h => visitExpr_bounded s value h
  | _, _, .passStmt, h => bounded_mono h Finset.subset_union_left

theorem visitStmtList_bounded : ∀ {A : Finset String} (s : State) (sts : List Stmt),
    Bounded A s → Bounded (A ∪ stmtListIds sts) (visitStmtList s sts)
  | _, _, [], h => bounded_mono h Finset.subset_union_left
  | _, s, st :: sts, h =>
    bounded_mono (visitStmtList_bounded _ sts (visitStmt_bounded s st h)) union_assoc_sub

end

/-- A freshly `defineTop`-ed name is defined on a non-empty stack. -/
theorem defined_defineTop_self (s : State) (n : String) (h : s.scopes ≠ []) :
    Defined n (defineTop s n).scopes := by
  cases hs : s.scopes with
  | nil => exact absurd hs h
  | cons sc rest =>
    refine ⟨{ sc with defs := insert n sc.defs }, ?_, Finset.mem_insert_self n sc.defs⟩
    simp only [defineTop, hs]
    exact List.mem_cons_self _ _

/-! ### The claims -/

/-- Claim C1: A load occurrence of `n` adds `n` to `refs` iff, at the
moment of visitation, `n` is absent from the `defs` of every frame on
the scope stack (a definition in any frame prevents recording); in
either case the scope stack is untouched. -/
theorem load_ref_iff_undefined_in_all_frames (s : State) (n : String) :
    visitExpr s (Expr.name n Ctx.load)
      = (if ∀ scope ∈ s.scopes, n ∉ scope.defs
         then { s with refs := insert n s.refs } else s) := by
  show handleRef s n = _
  unfold handleRef
  by_cases hc : ∀ scope ∈ s.scopes, n ∉ scope.defs
  · rw [if_pos hc, if_neg]
    simp only [List.any_eq_true, decide_eq_true_eq, not_exists]
    exact fun scope hsc => hc scope hsc.1 hsc.2
  · rw [if_neg hc, if_pos]
    push_neg at hc
    obtain ⟨scope, hsc, hin⟩ := hc
    simp only [List.any_eq_true, decide_eq_true_eq]
    exact ⟨scope, hsc, hin⟩

/-- Claim C2: The analysis result is exactly
`(refs − builtin_names, global frame defs)`: an identifier is in the
first component iff it was recorded as a free reference and is not a
builtin, and the second component is the `defs` set of the
global/outermost frame. -/
theorem scanGlobals_result_spec (tree : List Stmt) (builtin_names : Finset String) :
    (∀ n : String, n ∈ (scanGlobals tree builtin_names).1
        ↔ n ∈ (runVisitor tree).refs ∧ n ∉ builtin_names)
    ∧ (scanGlobals tree builtin_names).2 = globalDefs (runVisitor tree) :=
  ⟨fun _ => Finset.mem_sdiff, rfl⟩

/-- Claim C3: In an assignment the right-hand side is visited before any
target; analyzing `x = x` alone at global scope yields `x` both as a
free reference and as a top-level definition. -/
theorem assign_rhs_before_targets :
    (∀ (s : State) (targets : List Expr) (value : Expr),
      visitStmt s (Stmt.assign targets value) = visitExprList (visitExpr s value) targets)
    ∧ scanGlobals [Stmt.assign [Expr.name "x" Ctx.store] (Expr.name "x" Ctx.load)] ∅
        = ({"x"}, {"x"}) :=
  ⟨fun _ _ _ => rfl, by decide⟩

/-- Claim C4: A function (or class) definition records its name in the
frame that is on top at the definition site before the body frame is
pushed, so a load of that name inside its own body is never recorded as
free; `def f(): return f()` yields no free references and `{f}` as
top-level definitions. -/
theorem def_name_visible_in_own_body :
    (∀ (s : State) (name : String) (args : Arguments) (body : List Stmt),
      visitStmt s (Stmt.functionDef name args body)
        = popScope (visitStmtList
            (visitArguments (pushScope (defineTop s name) false) args) body))
    ∧ (∀ (s : State) (name : String) (args : Arguments) (body : List Stmt),
        s.scopes ≠ [] → name ∉ s.refs →
        name ∉ (visitStmt s (Stmt.functionDef name args body)).refs)
    ∧ (∀ (s : State) (name : String) (bases : List Expr) (body : List Stmt),
        s.scopes ≠ [] → name ∉ s.refs →
        name ∉ (visitStmt s (Stmt.classDef name bases body)).refs)
    ∧ scanGlobals [Stmt.functionDef "f" (Arguments.mk [] [] none [] [] none [])
        [Stmt.ret (some (Expr.call (Expr.name "f" Ctx.load) []))]] ∅ = (∅, {"f"}) := by
  refine ⟨fun _ _ _ _ => rfl, ?_, ?_, by decide⟩
  · intro s name args body hne hr
    have d0 : Defined name (pushScope (defineTop s name) false).scopes :=
      pushScope_defined (defined_defineTop_self s name hne)
    have r0 : name ∉ (pushScope (defineTop s name) false).refs := by
      show name ∉ (defineTop s name).refs
      rw [defineTop_refs]; exact hr
    exact visitStmtList_no_new_ref _ body name
      (defined_mono (visitArguments_scopesLE _ args) d0)
      (visitArguments_no_new_ref _ args name d0 r0)
  · intro s name bases body hne hr
    have d0 : Defined name (pushScope (defineTop s name) false).scopes :=
      pushScope_defined (defined_defineTop_self s name hne)
    have r0 : name ∉ (pushScope (defineTop s name) false).refs := by
      show name ∉ (defineTop s name).refs
      rw [defineTop_refs]; exact hr
    exact visitStmtList_no_new_ref _ body name
      (defined_mono (visitExprList_scopesLE _ bases) d0)
      (visitExprList_no_new_ref _ bases name d0 r0)

/-- Witness for `def_name_visible_in_own_body`: its hypotheses hold and
its conclusion evaluates at the spec's `def f(): return f()` program. -/
theorem def_name_visible_in_own_body_witness :
    "f" ∉ (visitStmt initState (Stmt.functionDef "f" (Arguments.mk [] [] none [] [] none [])
      [Stmt.ret (some (Expr.call (Expr.name "f" Ctx.load) []))])).refs :=
  def_name_visible_in_own_body.2.1 initState "f" (Arguments.mk [] [] none [] [] none [])
    [Stmt.ret (some (Expr.call (Expr.name "f" Ctx.load) []))] (by decide) (by decide)

/-- Claim C5: All default-value expressions of a parameter list are
visited before any parameter name is defined — the recorded references
of `visit_arguments` are exactly those of the defaults — and
`def f(x=y): pass` yields `y`, not `x`, as a free reference. -/
theorem defaults_before_params :
    (∀ (s : State) (posonlyargs args : List Arg) (vararg : Option Arg)
        (kwonlyargs : List Arg) (kw_defaults : List (Option Expr))
        (kwarg : Option Arg) (defaults : List Expr),
      visitArguments s (Arguments.mk posonlyargs args vararg kwonlyargs kw_defaults
          kwarg defaults)
        = visitOptArg (visitArgList (visitOptArg (visitArgList (visitArgList
            (visitOptExprList (visitExprList s defaults) kw_defaults)
            posonlyargs) args) vararg) kwonlyargs) kwarg)
    ∧ (∀ (s : State) (posonlyargs args : List Arg) (vararg : Option Arg)
        (kwonlyargs : List Arg) (kw_defaults : List (Option Expr))
        (kwarg : Option Arg) (defaults : List Expr),
      (visitArguments s (Arguments.mk posonlyargs args vararg kwonlyargs kw_defaults
          kwarg defaults)).refs
        = (visitOptExprList (visitExprList s defaults) kw_defaults).refs)
    ∧ scanGlobals [Stmt.functionDef "f"
        (Arguments.mk [] [Arg.mk "x" none] none [] [] none [Expr.name "y" Ctx.load])
        [Stmt.passStmt]] ∅ = ({"y"}, {"f"}) := by
  refine ⟨fun _ _ _ _ _ _ _ _ => rfl, ?_, by decide⟩
  intro s posonlyargs args vararg kwonlyargs kw_defaults kwarg defaults
  show (visitOptArg (visitArgList (visitOptArg (visitArgList (visitArgList
    (visitOptExprList (visitExprList s defaults) kw_defaults)
    posonlyargs) args) vararg) kwonlyargs) kwarg).refs = _
  rw [visitOptArg_refs, visitArgList_refs, visitOptArg_refs, visitArgList_refs,
    visitArgList_refs]

/-- Claim C6: A comprehension pushes its own frame (popped at the end, so
the stack depth is restored and its targets do not leak), each generator
clause visits the iterable before the target and the filters, and
`[x for x in range(3)]` at global scope yields only `range` free (free
only when not a builtin) and no top-level definition of `x`. -/
theorem comprehension_isolation :
    (∀ (s : State) (elt : Expr) (generators : List Comprehension),
      visitExpr s (Expr.listComp elt generators)
        = popScope (visitExpr
            (visitComprehensionList (pushScope s true) generators) elt))
    ∧ (∀ (s : State) (target iter : Expr) (ifs : List Expr),
      visitComprehension s (Comprehension.mk target iter ifs)
        = visitExprList (visitExpr (visitExpr s iter) target) ifs)
    ∧ (∀ (s : State) (elt : Expr) (generators : List Comprehension),
        (visitExpr s (Expr.listComp elt generators)).scopes.length = s.scopes.length)
    ∧ scanGlobals [Stmt.exprStmt (Expr.listComp (Expr.name "x" Ctx.load)
        [Comprehension.mk (Expr.name "x" Ctx.store)
          (Expr.call (Expr.name "range" Ctx.load) [Expr.constant]) []])] ∅
        = ({"range"}, ∅)
    ∧ scanGlobals [Stmt.exprStmt (Expr.listComp (Expr.name "x" Ctx.load)
        [Comprehension.mk (Expr.name "x" Ctx.store)
          (Expr.call (Expr.name "range" Ctx.load) [Expr.constant]) []])] {"range"}
        = (∅, ∅) :=
  ⟨fun _ _ _ => rfl, fun _ _ _ _ => rfl,
    fun s elt generators =>
      (scopesLE_length (visitExpr_scopesLE s (Expr.listComp elt generators))).symm,
    by decide, by decide⟩

/-- Claim C7: After visiting a walrus expression's value, if the top frame
is a comprehension frame and the target is a bare identifier, the name
is defined in the nearest frame below the top whose comprehension flag
is false (frames above it are untouched); `[y := x for x in range(3)]`
at global scope leaves `y` in the global frame's definitions. -/
theorem walrus_leaks_to_nearest_non_comprehension :
    (∀ (s : State) (id : String) (ctx : Ctx) (value : Expr),
        topIsComprehension (visitExpr s value) = true →
        visitExpr s (Expr.namedExpr (Expr.name id ctx) value)
          = { visitExpr s value with
              scopes := defineInNearestNonComprehension (visitExpr s value).scopes id })
    ∧ (∀ (front : List Scope) (nc : Scope) (rest : List Scope) (id : String),
        (∀ scope ∈ front, scope.is_comprehension = true) →
        nc.is_comprehension = false →
        defineInNearestNonComprehension (front ++ nc :: rest) id
          = front ++ { nc with defs := insert id nc.defs } :: rest)
    ∧ scanGlobals [Stmt.exprStmt (Expr.listComp
        (Expr.namedExpr (Expr.name "y" Ctx.store) (Expr.name "x" Ctx.load))
        [Comprehension.mk (Expr.name "x" Ctx.store)
          (Expr.call (Expr.name "range" Ctx.load) [Expr.constant]) []])] {"range"}
        = (∅, {"y"}) := by
  refine ⟨?_, ?_, by decide⟩
  · intro s id ctx value h
    simp only [visitExpr]
    rw [if_pos h]
  · intro front nc rest id hfront hnc
    induction front with
    | nil => simp [defineInNearestNonComprehension, hnc]
    | cons sc front ih =>
      have hsc : sc.is_comprehension = true := hfront sc (List.mem_cons_self sc front)
      simp only [List.cons_append, defineInNearestNonComprehension, hsc, if_true,
        List.append_eq]
      rw [ih (fun a ha => hfront a (List.mem_cons_of_mem sc ha))]

/-- Witness for `walrus_leaks_to_nearest_non_comprehension`: both
hypothesis-bearing conjuncts applied at concrete inputs. -/
theorem walrus_leaks_witness :
    (visitExpr (State.mk ∅ [Scope.mk {"x"} true, Scope.mk ∅ false])
        (Expr.namedExpr (Expr.name "y" Ctx.store) (Expr.name "x" Ctx.load))
      = { visitExpr (State.mk ∅ [Scope.mk {"x"} true, Scope.mk ∅ false])
            (Expr.name "x" Ctx.load) with
          scopes := defineInNearestNonComprehension
            (visitExpr (State.mk ∅ [Scope.mk {"x"} true, Scope.mk ∅ false])
              (Expr.name "x" Ctx.load)).scopes "y" })
    ∧ defineInNearestNonComprehension ([Scope.mk ∅ true] ++ Scope.mk ∅ false :: []) "y"
        = [Scope.mk ∅ true] ++ { Scope.mk ∅ false with defs := insert "y" ∅ } :: [] :=
  ⟨walrus_leaks_to_nearest_non_comprehension.1
      (State.mk ∅ [Scope.mk {"x"} true, Scope.mk ∅ false]) "y" Ctx.store
      (Expr.name "x" Ctx.load) (by decide),
    walrus_leaks_to_nearest_non_comprehension.2.1
      [Scope.mk ∅ true] (Scope.mk ∅ false) [] "y" (by decide) rfl⟩

/-- Claim C8: An augmented assignment to a bare identifier visits the
right-hand side, then checks the target as a load, then defines it in
the top frame; `x += 1` at global scope with no prior `x` yields `x`
both free and defined at top level. -/
theorem augassign_load_then_store :
    (∀ (s : State) (id : String) (value : Expr),
      visitStmt s (Stmt.augAssign (Expr.name id Ctx.store) value)
        = defineTop (handleRef (visitExpr s value) id) id)
    ∧ scanGlobals [Stmt.augAssign (Expr.name "x" Ctx.store) Expr.constant] ∅
        = ({"x"}, {"x"}) :=
  ⟨fun _ _ _ => rfl, by decide⟩

/-- Claim C9: The global frame is pushed exactly once at initialization;
visiting any complete statement or expression subtree restores the stack
depth and the per-frame comprehension flags (pushes and pops balance in
LIFO order), and after a whole run exactly the global frame remains. -/
theorem scope_stack_balanced :
    initState.scopes = [Scope.mk ∅ false]
    ∧ (∀ (s : State) (st : Stmt),
        (visitStmt s st).scopes.length = s.scopes.length
        ∧ (visitStmt s st).scopes.map Scope.is_comprehension
            = s.scopes.map Scope.is_comprehension)
    ∧ (∀ (s : State) (e : Expr),
        (visitExpr s e).scopes.length = s.scopes.length
        ∧ (visitExpr s e).scopes.map Scope.is_comprehension
            = s.scopes.map Scope.is_comprehension)
    ∧ (∀ tree : List Stmt, (runVisitor tree).scopes.length = 1) :=
  ⟨rfl,
    fun s st => ⟨(scopesLE_length (visitStmt_scopesLE s st)).symm,
      (scopesLE_flags (visitStmt_scopesLE s st)).symm⟩,
    fun s e => ⟨(scopesLE_length (visitExpr_scopesLE s e)).symm,
      (scopesLE_flags (visitExpr_scopesLE s e)).symm⟩,
    fun tree => (scopesLE_length (visitStmtList_scopesLE initState tree)).symm⟩

/-- Claim C10: Annotation expressions are never scanned: the annotated
assignment handler's result does not depend on the annotation, nor does
the parameter handler's, and an identifier occurring only inside such
annotations (i.e. absent from the identifier sets that exclude
annotation positions) ends up neither in `refs` nor in any frame's
`defs`. -/
theorem annotations_never_scanned :
    (∀ (s : State) (target a1 a2 : Expr) (value : Option Expr),
      visitStmt s (Stmt.annAssign target a1 value)
        = visitStmt s (Stmt.annAssign target a2 value))
    ∧ (∀ (s : State) (x : String) (a1 a2 : Option Expr),
      visitArg s (Arg.mk x a1) = visitArg s (Arg.mk x a2))
    ∧ (∀ (tree : List Stmt) (n : String), n ∉ stmtListIds tree →
        n ∉ (runVisitor tree).refs
        ∧ ∀ scope ∈ (runVisitor tree).scopes, n ∉ scope.defs) := by
  refine ⟨fun _ _ _ _ _ => rfl, fun _ _ _ _ => rfl, ?_⟩
  intro tree n hn
  have h0 : Bounded ∅ initState := by
    constructor
    · exact Finset.Subset.refl ∅
    · intro scope hscope
      rcases List.mem_cons.mp hscope with hs | hs
      · rw [hs]
      · exact absurd hs (List.not_mem_nil scope)
  have hb := visitStmtList_bounded initState tree h0
  rw [Finset.empty_union] at hb
  exact ⟨fun hmem => hn (hb.1 hmem),
    fun scope hscope hmem => hn (hb.2 scope hscope hmem)⟩

/-- Witness for `annotations_never_scanned`: for
`x: y = ...`-style `x : y` (annotated assignment with no value), the
identifier `y` occurs only in the annotation and is recorded nowhere. -/
theorem annotations_never_scanned_witness :
    "y" ∉ stmtListIds [Stmt.annAssign (Expr.name "x" Ctx.store) (Expr.name "y" Ctx.load) none]
    ∧ ("y" ∉ (runVisitor [Stmt.annAssign (Expr.name "x" Ctx.store)
          (Expr.name "y" Ctx.load) none]).refs
      ∧ ∀ scope ∈ (runVisitor [Stmt.annAssign (Expr.name "x" Ctx.store)
          (Expr.name "y" Ctx.load) none]).scopes, "y" ∉ scope.defs) :=
  ⟨by decide, annotations_never_scanned.2.2
    [Stmt.annAssign (Expr.name "x" Ctx.store) (Expr.name "y" Ctx.load) none] "y" (by decide)⟩

end ScanGlobals
